import Mathlib

/-!
Shallow embedding of the memory/continuity subsystem of the `topos-network/plonky2`
zkEVM proving core, together with theorems settling the specification claims.

Embedded source files:
- `evm/src/witness/memory.rs` (addresses, operations, memory state)
- `evm/src/witness/state.rs` (register snapshots)
- `evm/src/cpu/kernel/constants/global_metadata.rs` (metadata enumeration)
- `evm/src/mem_after/mem_after_stark.rs` (final-memory trace generation)
- `src/field/extension_field.rs` (quartic extension field)

Machine integers (`usize`, `U256`) are modelled as `Nat`; the only arithmetic the
embedded code performs on them is comparison, bit-length (`U256::bits`, modelled
as `Nat.size`) and within-range indexing, so no wrap-around is observable.
Panics (failed `assert!` / out-of-bounds indexing) are modelled by `Option`:
`none` is an abort.
-/

namespace Plonky2

/-- Modelled from the spec: the `Segment` enumeration of
`evm/src/memory/segments.rs` is not among the provided sources; the spec says
`segment` is one of a fixed finite enumeration known at compile time, exposing a
cardinality (`Segment::COUNT`, used by `MemoryAddress::new_u256s` and as the
length of each context's segment array) and a declared bit width per segment
(`Segment::bit_range`, used by the `assert!`s in `MemoryState::{get, set}`).
We model it as an arbitrary cardinality together with a bit-width table. -/
structure SegmentInfo where
  count : Nat
  bit_range : Nat → Nat

/-- Memory errors of `evm/src/witness/errors.rs` used by `MemoryAddress::new_u256s`. -/
inductive MemoryError where
  | ContextTooLarge (context : Nat)
  | SegmentTooLarge (segment : Nat)
  | VirtTooLarge (virt : Nat)
  deriving DecidableEq, Repr

/-- Program errors (`evm/src/witness/errors.rs`): only the `MemoryError` arm is
exercised by the embedded code. -/
inductive ProgramError where
  | MemoryError (e : MemoryError)
  deriving DecidableEq, Repr

/-- `MemoryAddress` of `evm/src/witness/memory.rs`: context, segment and virtual
offset, all `usize` in the source. -/
@[ext]
structure MemoryAddress where
  context : Nat
  segment : Nat
  virt : Nat
  deriving DecidableEq, Repr

namespace MemoryAddress

/-- `MemoryAddress::new_u256s`: validated construction from wide (`U256`)
integers.  The source checks, in order: `context.bits() > 32`,
`segment >= Segment::COUNT`, `virt.bits() > 32`, and otherwise converts with
`as_usize` (exact for values of at most 32 bits, modelled as identity on `Nat`). -/
def new_u256s (SI : SegmentInfo) (context segment virt : Nat) :
    Except ProgramError MemoryAddress :=
  if 32 < Nat.size context then
    .error (.MemoryError (.ContextTooLarge context))
  else if SI.count ≤ segment then
    .error (.MemoryError (.SegmentTooLarge segment))
  else if 32 < Nat.size virt then
    .error (.MemoryError (.VirtTooLarge virt))
  else
    .ok { context := context, segment := segment, virt := virt }

end MemoryAddress

/-- `RegistersState` of `evm/src/witness/state.rs`. -/
structure RegistersState where
  program_counter : Nat
  is_kernel : Bool
  stack_len : Nat
  stack_top : Nat
  is_stack_top_read : Bool
  check_overflow : Bool
  context : Nat
  gas_used : Nat
  deriving DecidableEq, Repr

/-- `KERNEL_CONTEXT` of `evm/src/witness/state.rs`. -/
def KERNEL_CONTEXT : Nat := 0

/-- `RegistersState::code_context`: context 0 in kernel mode, the ambient
context otherwise. -/
def RegistersState.code_context (r : RegistersState) : Nat :=
  if r.is_kernel then KERNEL_CONTEXT else r.context

/-- `GlobalMetadata` of `evm/src/cpu/kernel/constants/global_metadata.rs`:
the fixed enumeration of global VM metadata fields, with the discriminants
assigned in the source. -/
inductive GlobalMetadata where
  | LargestContext
  | MemorySize
  | TrieDataSize
  | RlpDataSize
  | StateTrieRoot
  | ReceiptTrieRoot
  | StateTrieRootDigestBefore
  | ReceiptTrieRootDigestBefore
  | StateTrieRootDigestAfter
  | ReceiptTrieRootDigestAfter
  | TrieEncodedChildSize
  | BlockBeneficiary
  | BlockTimestamp
  | BlockNumber
  | BlockDifficulty
  | BlockRandom
  | BlockGasLimit
  | BlockChainId
  | BlockBaseFee
  | BlockGasUsed
  | BlockGasUsedBefore
  | BlockGasUsedAfter
  | BlockCurrentHash
  | RefundCounter
  | AccessedAddressesLen
  | AccessedStorageKeysLen
  | SelfDestructListLen
  | BloomEntryLen
  | JournalLen
  | JournalDataLen
  | CurrentCheckpoint
  | TouchedAddressesLen
  | AccessListDataCost
  | AccessListRlpStart
  | AccessListRlpLen
  | ContractCreation
  | IsPrecompileFromEoa
  | CallStackDepth
  | LogsLen
  | LogsDataLen
  | LogsPayloadLen
  | TxnNumberBefore
  | TxnNumberAfter
  | KernelHash
  | KernelLen
  deriving DecidableEq, Repr, Fintype

namespace GlobalMetadata

/-- The integer discriminant of each `GlobalMetadata` variant, as assigned in
the source (`LargestContext = 0`, ..., `KernelLen = 44`). -/
def toDiscriminant : GlobalMetadata → Nat
  | .LargestContext => 0
  | .MemorySize => 1
  | .TrieDataSize => 2
  | .RlpDataSize => 3
  | .StateTrieRoot => 4
  | .ReceiptTrieRoot => 5
  | .StateTrieRootDigestBefore => 6
  | .ReceiptTrieRootDigestBefore => 7
  | .StateTrieRootDigestAfter => 8
  | .ReceiptTrieRootDigestAfter => 9
  | .TrieEncodedChildSize => 10
  | .BlockBeneficiary => 11
  | .BlockTimestamp => 12
  | .BlockNumber => 13
  | .BlockDifficulty => 14
  | .BlockRandom => 15
  | .BlockGasLimit => 16
  | .BlockChainId => 17
  | .BlockBaseFee => 18
  | .BlockGasUsed => 19
  | .BlockGasUsedBefore => 20
  | .BlockGasUsedAfter => 21
  | .BlockCurrentHash => 22
  | .RefundCounter => 23
  | .AccessedAddressesLen => 24
  | .AccessedStorageKeysLen => 25
  | .SelfDestructListLen => 26
  | .BloomEntryLen => 27
  | .JournalLen => 28
  | .JournalDataLen => 29
  | .CurrentCheckpoint => 30
  | .TouchedAddressesLen => 31
  | .AccessListDataCost => 32
  | .AccessListRlpStart => 33
  | .AccessListRlpLen => 34
  | .ContractCreation => 35
  | .IsPrecompileFromEoa => 36
  | .CallStackDepth => 37
  | .LogsLen => 38
  | .LogsDataLen => 39
  | .LogsPayloadLen => 40
  | .TxnNumberBefore => 41
  | .TxnNumberAfter => 42
  | .KernelHash => 43
  | .KernelLen => 44

/-- `GlobalMetadata::COUNT`. -/
def COUNT : Nat := 45

/-- `GlobalMetadata::all()`: the array of all variants, in the order written in
the source (note `BlockCurrentHash` appears between `LogsPayloadLen` and
`TxnNumberBefore` there, not at its discriminant position). -/
def all : List GlobalMetadata :=
  [ .LargestContext
  , .MemorySize
  , .TrieDataSize
  , .RlpDataSize
  , .StateTrieRoot
  , .ReceiptTrieRoot
  , .StateTrieRootDigestBefore
  , .ReceiptTrieRootDigestBefore
  , .StateTrieRootDigestAfter
  , .ReceiptTrieRootDigestAfter
  , .TrieEncodedChildSize
  , .BlockBeneficiary
  , .BlockTimestamp
  , .BlockNumber
  , .BlockDifficulty
  , .BlockRandom
  , .BlockGasLimit
  , .BlockChainId
  , .BlockBaseFee
  , .BlockGasUsed
  , .BlockGasUsedBefore
  , .BlockGasUsedAfter
  , .RefundCounter
  , .AccessedAddressesLen
  , .AccessedStorageKeysLen
  , .SelfDestructListLen
  , .BloomEntryLen
  , .JournalLen
  , .JournalDataLen
  , .CurrentCheckpoint
  , .TouchedAddressesLen
  , .AccessListDataCost
  , .AccessListRlpStart
  , .AccessListRlpLen
  , .ContractCreation
  , .IsPrecompileFromEoa
  , .CallStackDepth
  , .LogsLen
  , .LogsDataLen
  , .LogsPayloadLen
  , .BlockCurrentHash
  , .TxnNumberBefore
  , .TxnNumberAfter
  , .KernelHash
  , .KernelLen ]

end GlobalMetadata

/-- `MemoryChannel` of `evm/src/witness/memory.rs`: the code channel plus the
general-purpose channels. -/
inductive MemoryChannel where
  | Code
  | GeneralPurpose (n : Nat)
  deriving DecidableEq, Repr

/-- Modelled from the spec: `NUM_CHANNELS` and `NUM_GP_CHANNELS` live in
`evm/src/cpu/membus.rs`, which is not among the provided sources.  The spec
says the channels are the code channel plus `NUM_GP_CHANNELS` general-purpose
channels and that `timestamp = clock * channel_count + channel_index`, so the
channel count is `NUM_GP_CHANNELS + 1`.  We parameterize by `NUM_GP_CHANNELS`. -/
def NUM_CHANNELS (numGP : Nat) : Nat := numGP + 1

/-- `MemoryChannel::index`: 0 for `Code`, `n + 1` for `GeneralPurpose(n)`; the
source `assert!(n < NUM_GP_CHANNELS)` is modelled by returning `none`. -/
def MemoryChannel.index (numGP : Nat) : MemoryChannel → Option Nat
  | .Code => some 0
  | .GeneralPurpose n => if n < numGP then some (n + 1) else none

/-- `MemoryOpKind` of `evm/src/witness/memory.rs`. -/
inductive MemoryOpKind where
  | Read
  | Write
  deriving DecidableEq, Repr

/-- `MemoryOp` of `evm/src/witness/memory.rs`. -/
structure MemoryOp where
  filter : Bool
  timestamp : Nat
  address : MemoryAddress
  kind : MemoryOpKind
  value : Nat
  deriving DecidableEq, Repr

/-- `MemoryOp::new`: a real (filter = true) operation with
`timestamp = clock * NUM_CHANNELS + channel.index()`; `none` models the panic
of `channel.index()` on an out-of-range general-purpose channel. -/
def MemoryOp.new (numGP clock : Nat) (channel : MemoryChannel)
    (address : MemoryAddress) (kind : MemoryOpKind) (value : Nat) :
    Option MemoryOp :=
  (channel.index numGP).map fun i =>
    { filter := true, timestamp := clock * NUM_CHANNELS numGP + i,
      address := address, kind := kind, value := value }

/-- `MemorySegmentState` of `evm/src/witness/memory.rs`: the dynamically grown
value vector of one segment. -/
@[ext]
structure MemorySegmentState where
  content : List Nat
  deriving DecidableEq, Repr

namespace MemorySegmentState

/-- `MemorySegmentState::get`: the stored value, or 0 beyond the vector. -/
def get (s : MemorySegmentState) (virtual_addr : Nat) : Nat :=
  s.content.getD virtual_addr 0

/-- `MemorySegmentState::set`: `resize(virtual_addr + 1, 0)` when writing past
the end (the appended `List.replicate` is empty otherwise), then store. -/
def set (s : MemorySegmentState) (virtual_addr value : Nat) : MemorySegmentState :=
  ⟨(s.content ++ List.replicate (virtual_addr + 1 - s.content.length) 0).set virtual_addr value⟩

end MemorySegmentState

/-- `MemoryContextState` of `evm/src/witness/memory.rs`.  The source stores a
fixed array `[MemorySegmentState; Segment::COUNT]`; with the segment count a
parameter (see `SegmentInfo`) we model the array as a total function from
segment index — the embedded operations only ever read or write indices below
`SegmentInfo.count`, matching the array's in-bounds accesses. -/
@[ext]
structure MemoryContextState where
  segments : Nat → MemorySegmentState

/-- `MemoryContextState::default()`: every segment empty. -/
def MemoryContextState.default : MemoryContextState :=
  ⟨fun _ => ⟨[]⟩⟩

/-- `MemoryState` of `evm/src/witness/memory.rs`: the per-context segment
stores. -/
@[ext]
structure MemoryState where
  contexts : List MemoryContextState

/-- `MemoryState::default()`: a single (kernel) context. -/
def MemoryState.default : MemoryState :=
  ⟨[MemoryContextState.default]⟩

namespace MemoryState

/-- The content list of segment `i` of context `c` (empty for a context that
does not exist). -/
def segContent (s : MemoryState) (c i : Nat) : List Nat :=
  ((s.contexts.getD c MemoryContextState.default).segments i).content

/-- The raw value stored at an address: the stored entry, or 0 when the
context, or the offset within the segment, does not exist. -/
def peek (s : MemoryState) (a : MemoryAddress) : Nat :=
  (s.segContent a.context a.segment).getD a.virt 0

/-- `MemoryState::get`: 0 for a context beyond the current context vector,
otherwise the stored value guarded by the source's
`assert!(val.bits() <= segment.bit_range())`; `none` models the panic of that
assertion or of the `Segment::all()[address.segment]` lookup. -/
def get (s : MemoryState) (SI : SegmentInfo) (a : MemoryAddress) : Option Nat :=
  if s.contexts.length ≤ a.context then some 0
  else if a.segment < SI.count then
    let val := ((s.contexts.getD a.context MemoryContextState.default).segments a.segment).get a.virt
    if Nat.size val ≤ SI.bit_range a.segment then some val else none
  else none

/-- The state mutation performed by `MemoryState::set` once its guards pass:
push default contexts until `address.context` exists, then update the
addressed segment. -/
def setRaw (s : MemoryState) (a : MemoryAddress) (v : Nat) : MemoryState :=
  let grown := s.contexts ++ List.replicate (a.context + 1 - s.contexts.length) MemoryContextState.default
  let ctx := grown.getD a.context MemoryContextState.default
  ⟨grown.set a.context
    ⟨Function.update ctx.segments a.segment ((ctx.segments a.segment).set a.virt v)⟩⟩

/-- `MemoryState::set`: grow the context vector, then
`Segment::all()[address.segment]` (panic for an out-of-range segment index) and
`assert!(val.bits() <= segment.bit_range())` (panic on violation), then store.
`none` models the panics. -/
def set (s : MemoryState) (SI : SegmentInfo) (a : MemoryAddress) (v : Nat) :
    Option MemoryState :=
  if a.segment < SI.count then
    if Nat.size v ≤ SI.bit_range a.segment then some (s.setRaw a v) else none
  else none

end MemoryState

/-- `MemoryState::apply_ops`: replay the operation list in order, applying
`set` for each `Write` and skipping `Read`s; `none` models a panic inside
`set`. -/
def apply_ops (SI : SegmentInfo) : MemoryState → List MemoryOp → Option MemoryState
  | s, [] => some s
  | s, op :: rest =>
    if op.kind = MemoryOpKind.Write then
      match s.set SI op.address op.value with
      | some s1 => apply_ops SI s1 rest
      | none => none
    else apply_ops SI s rest

/-- The per-operation guard under which `apply_ops` cannot panic: every write
addresses a valid segment with a value within its declared bit range. -/
def opOk (SI : SegmentInfo) (op : MemoryOp) : Prop :=
  op.kind = MemoryOpKind.Write →
    (op.address.segment < SI.count ∧ Nat.size op.value ≤ SI.bit_range op.address.segment)

instance (SI : SegmentInfo) (op : MemoryOp) : Decidable (opOk SI op) := by
  unfold opOk; infer_instance

/-- The value of the last write of an operation list at a given address, if
any (writes later in the list take priority via `Option.or`). -/
def lastWrite : List MemoryOp → MemoryAddress → Option Nat
  | [], _ => none
  | op :: rest, a =>
    (lastWrite rest a).or
      (if op.kind = MemoryOpKind.Write ∧ op.address = a then some op.value else none)

/-- The number of contexts an operation list forces into existence. -/
def needCtx : List MemoryOp → Nat
  | [] => 0
  | op :: rest =>
    max (if op.kind = MemoryOpKind.Write then op.address.context + 1 else 0) (needCtx rest)

/-- The segment-content length an operation list forces at context `c`,
segment `i`. -/
def needLen : List MemoryOp → Nat → Nat → Nat
  | [], _, _ => 0
  | op :: rest, c, i =>
    max
      (if op.kind = MemoryOpKind.Write ∧ op.address.context = c ∧ op.address.segment = i
       then op.address.virt + 1 else 0)
      (needLen rest c i)

/-- Rust `usize::next_power_of_two`: the smallest power of two greater than or
equal to the input (1 for input 0). -/
def next_power_of_two (n : Nat) : Nat := 2 ^ Nat.clog 2 n

/-- Modelled from the spec: `CrandallField` (`src/field/crandall_field.rs`) is
not among the provided sources; the spec treats the base field as a black-box
"field with addition, multiplication, inversion".  We model it as `ZMod p` for
a prime `p`, with `exp_usize` as `^` and `inverse` as the field inverse.  The
quartic extension `QuarticCrandallField` of `src/field/extension_field.rs` is a
4-tuple of base elements.  `qmul` below is the exact quartic field product
modulo `X^4 - W` with `W = CrandallField(3)` — the semantics the source
documents and tests for its `Mul` (the trait doc states `frobenius` is
`x -> x^p`, `test_frobenius` asserts `x.exp_usize(ORDER) == x.frobenius()`
through this `Mul`, and `try_inverse` debug-asserts its norm lands in the base
field).  It is NOT the source's evaluation strategy: the source computes each
coefficient as a `u128` sum of products (for example
`c0 = reduce128(a0 * b0 + w * (a1 * b3 + a2 * b2 + a3 * b1))`), and for
canonical Crandall-sized components that sum exceeds `u128::MAX`, so a debug
build panics and a release build wraps mod `2^128` before `reduce128`.  That
evaluation is modelled faithfully by `mul_c0_sum`/`wrap128` below, and
`mul_c0_overflow_wraps` proves it diverges (mod `p`) from the field product at
a canonical input — a defect of the code, not of its stated specification;
`quartic_frobenius_and_try_inverse` proves the stated frobenius/inversion
properties hold for the documented field-product semantics.  The source
asserts `X^4 - 3` is irreducible over the base field; for an odd prime
`p ≡ 1 mod 4` this is equivalent to 3 being a quadratic non-residue, which
the frobenius/inversion theorems take as hypotheses. -/
@[ext]
structure QuarticCrandallField (p : Nat) where
  a0 : ZMod p
  a1 : ZMod p
  a2 : ZMod p
  a3 : ZMod p
  deriving DecidableEq

namespace QuarticCrandallField

/-- `QuarticFieldExtension::W = CrandallField(3)`. -/
def W (p : Nat) : ZMod p := 3

/-- Componentwise addition (`impl Add`). -/
def qadd {p : Nat} (x y : QuarticCrandallField p) : QuarticCrandallField p :=
  ⟨x.a0 + y.a0, x.a1 + y.a1, x.a2 + y.a2, x.a3 + y.a3⟩

/-- Componentwise negation (`impl Neg`). -/
def qneg {p : Nat} (x : QuarticCrandallField p) : QuarticCrandallField p :=
  ⟨-x.a0, -x.a1, -x.a2, -x.a3⟩

/-- The quartic product modulo `X^4 - W`: the documented/tested semantics of
`impl Mul` (see the modelling note on `QuarticCrandallField`; the source's
actual `u128` evaluation of these coefficient sums overflows for canonical
components and is modelled separately by `mul_c0_sum`/`wrap128`). -/
def qmul {p : Nat} (x y : QuarticCrandallField p) : QuarticCrandallField p :=
  ⟨x.a0 * y.a0 + W p * (x.a1 * y.a3 + x.a2 * y.a2 + x.a3 * y.a1),
   x.a0 * y.a1 + x.a1 * y.a0 + W p * (x.a2 * y.a3 + x.a3 * y.a2),
   x.a0 * y.a2 + x.a1 * y.a1 + x.a2 * y.a0 + W p * (x.a3 * y.a3),
   x.a0 * y.a3 + x.a1 * y.a2 + x.a2 * y.a1 + x.a3 * y.a0⟩

/-- Faithful evaluation of the first `Mul` coefficient of
`src/field/extension_field.rs`: the exact integer value of the `u128`
expression `a0 * b0 + w * (a1 * b3 + a2 * b2 + a3 * b1)` with `w = 3`, on raw
`u64` component values (`x.0 as u128`).  The source evaluates this in `u128`:
a debug build panics as soon as the exact value reaches `2^128`, and a release
build wraps it (`wrap128`) before `reduce128` maps it into the field. -/
def mul_c0_sum (a0 a1 a2 a3 b0 b1 b2 b3 : Nat) : Nat :=
  a0 * b0 + 3 * (a1 * b3 + a2 * b2 + a3 * b1)

/-- Release-mode wrap-around of a `u128` sum. -/
def wrap128 (x : Nat) : Nat := x % 2 ^ 128

instance instZero {p : Nat} : Zero (QuarticCrandallField p) := ⟨⟨0, 0, 0, 0⟩⟩

instance instOne {p : Nat} : One (QuarticCrandallField p) := ⟨⟨1, 0, 0, 0⟩⟩

instance instAdd {p : Nat} : Add (QuarticCrandallField p) := ⟨qadd⟩

instance instNeg {p : Nat} : Neg (QuarticCrandallField p) := ⟨qneg⟩

instance instMul {p : Nat} : Mul (QuarticCrandallField p) := ⟨qmul⟩

instance instCommRing {p : Nat} : CommRing (QuarticCrandallField p) where
  add := qadd
  add_assoc := by
    intro a b c
    show qadd (qadd a b) c = qadd a (qadd b c)
    apply QuarticCrandallField.ext <;> dsimp only [qadd] <;> ring
  zero := ⟨0, 0, 0, 0⟩
  nsmul := nsmulRec
  zsmul := zsmulRec
  zero_add := by
    intro a
    show qadd ⟨0, 0, 0, 0⟩ a = a
    apply QuarticCrandallField.ext <;> dsimp only [qadd] <;> ring
  add_zero := by
    intro a
    show qadd a ⟨0, 0, 0, 0⟩ = a
    apply QuarticCrandallField.ext <;> dsimp only [qadd] <;> ring
  add_comm := by
    intro a b
    show qadd a b = qadd b a
    apply QuarticCrandallField.ext <;> dsimp only [qadd] <;> ring
  neg := qneg
  neg_add_cancel := by
    intro a
    show qadd (qneg a) a = ⟨0, 0, 0, 0⟩
    apply QuarticCrandallField.ext <;> dsimp only [qadd, qneg] <;> ring
  mul := qmul
  mul_assoc := by
    intro a b c
    show qmul (qmul a b) c = qmul a (qmul b c)
    apply QuarticCrandallField.ext <;> dsimp only [qmul, W] <;> ring
  one := ⟨1, 0, 0, 0⟩
  one_mul := by
    intro a
    show qmul ⟨1, 0, 0, 0⟩ a = a
    apply QuarticCrandallField.ext <;> dsimp only [qmul, W] <;> ring
  mul_one := by
    intro a
    show qmul a ⟨1, 0, 0, 0⟩ = a
    apply QuarticCrandallField.ext <;> dsimp only [qmul, W] <;> ring
  left_distrib := by
    intro a b c
    show qmul a (qadd b c) = qadd (qmul a b) (qmul a c)
    apply QuarticCrandallField.ext <;> dsimp only [qadd, qmul, W] <;> ring
  right_distrib := by
    intro a b c
    show qmul (qadd a b) c = qadd (qmul a c) (qmul b c)
    apply QuarticCrandallField.ext <;> dsimp only [qadd, qmul, W] <;> ring
  zero_mul := by
    intro a
    show qmul ⟨0, 0, 0, 0⟩ a = ⟨0, 0, 0, 0⟩
    apply QuarticCrandallField.ext <;> dsimp only [qmul, W] <;> ring
  mul_zero := by
    intro a
    show qmul a ⟨0, 0, 0, 0⟩ = ⟨0, 0, 0, 0⟩
    apply QuarticCrandallField.ext <;> dsimp only [qmul, W] <;> ring
  mul_comm := by
    intro a b
    show qmul a b = qmul b a
    apply QuarticCrandallField.ext <;> dsimp only [qmul, W] <;> ring

/-- The base-field embedding `c ↦ (c, 0, 0, 0)` (proof-side helper). -/
def iota {p : Nat} (c : ZMod p) : QuarticCrandallField p := ⟨c, 0, 0, 0⟩

/-- The generator `X` of the quartic extension (proof-side helper). -/
def root (p : Nat) : QuarticCrandallField p := ⟨0, 1, 0, 0⟩

/-- The quadratic conjugate `a0 - a1 X + a2 X² - a3 X³` (proof-side helper for
the norm argument). -/
def conj {p : Nat} (x : QuarticCrandallField p) : QuarticCrandallField p :=
  ⟨x.a0, -x.a1, x.a2, -x.a3⟩

/-- `QuarticFieldExtension::scalar_mul`. -/
def scalar_mul {p : Nat} (x : QuarticCrandallField p) (c : ZMod p) :
    QuarticCrandallField p :=
  ⟨x.a0 * c, x.a1 * c, x.a2 * c, x.a3 * c⟩

/-- `QuarticCrandallField::frobenius`: `z0 = W.exp_usize((ORDER - 1) / 4)` and
the running multiplier `z` starting at `ONE` and multiplied by `z0` before each
of `b1`, `b2`, `b3` (the source computes `b0 = a0 * z` with `z = 1`). -/
def frobenius {p : Nat} (x : QuarticCrandallField p) : QuarticCrandallField p :=
  let z0 := W p ^ ((p - 1) / 4)
  ⟨x.a0 * 1, x.a1 * (1 * z0), x.a2 * (1 * z0 * z0), x.a3 * (1 * z0 * z0 * z0)⟩

/-- `Field::try_inverse` for `QuarticCrandallField` (Algorithm 11.3.4 in the
Handbook of Elliptic and Hyperelliptic Curve Cryptography): `None` on zero,
otherwise `a^(r-1) / a^r` with `r = p^3 + p^2 + p + 1` computed through the
Frobenius.  The source's `debug_assert!(a_pow_r.is_in_basefield())` is a
debug-build check with no effect on the returned value; the base-field
`inverse()` is the field inverse (see the modelling note on
`QuarticCrandallField`). -/
def try_inverse {p : Nat} [Fact p.Prime] (x : QuarticCrandallField p) :
    Option (QuarticCrandallField p) :=
  if x = 0 then none
  else
    let a_pow_p := frobenius x
    let a_pow_p_plus_1 := a_pow_p * x
    let a_pow_p3_plus_p2 := frobenius (frobenius a_pow_p_plus_1)
    let a_pow_r_minus_1 := a_pow_p3_plus_p2 * a_pow_p
    let a_pow_r := a_pow_r_minus_1 * x
    some (scalar_mul a_pow_r_minus_1 (a_pow_r.a0)⁻¹)

instance instCharP {p : Nat} : CharP (QuarticCrandallField p) p where
  cast_eq_zero_iff' := by
    have hn : ∀ m : Nat, ((m : Nat) : QuarticCrandallField p)
        = ⟨(m : ZMod p), 0, 0, 0⟩ := by
      intro m
      induction m with
      | zero =>
        show (0 : QuarticCrandallField p) = _
        rw [Nat.cast_zero]
        rfl
      | succ m ih =>
        rw [Nat.cast_succ, ih]
        refine QuarticCrandallField.ext ?_ ?_ ?_ ?_
        · show (m : ZMod p) + 1 = ((m + 1 : Nat) : ZMod p)
          exact (Nat.cast_succ m).symm
        · show (0 : ZMod p) + 0 = 0
          rw [add_zero]
        · show (0 : ZMod p) + 0 = 0
          rw [add_zero]
        · show (0 : ZMod p) + 0 = 0
          rw [add_zero]
    intro n
    rw [hn n]
    constructor
    · intro h
      have h0 : ((n : Nat) : ZMod p) = 0 := congrArg QuarticCrandallField.a0 h
      exact (CharP.cast_eq_zero_iff (ZMod p) p n).mp h0
    · intro h
      have h0 : ((n : Nat) : ZMod p) = 0 := (CharP.cast_eq_zero_iff (ZMod p) p n).mpr h
      rw [h0]
      rfl

end QuarticCrandallField

instance fact_prime_five : Fact (Nat.Prime 5) := ⟨by norm_num⟩

/-- `MemAfterStark::generate_trace` of `evm/src/mem_after/mem_after_stark.rs`,
in row-major form: the real `final_values` rows followed by all-zero rows of
`NUM_COLUMNS` entries each, up to `max(16, num_rows.next_power_of_two())` rows.
The source then transposes this row list into column-major
`PolynomialValues`, a pure re-indexing.  `NUM_COLUMNS` comes from
`evm/src/mem_after/columns.rs`, not among the provided sources, and is kept as
a parameter. -/
def generate_trace_rows {F : Type} [Zero F] (numColumns : Nat)
    (final_values : List (List F)) : List (List F) :=
  let num_rows := final_values.length
  let num_rows_padded := max 16 (next_power_of_two num_rows)
  final_values ++ List.replicate (num_rows_padded - num_rows) (List.replicate numColumns 0)

end Plonky2

namespace Plonky2

/-- C7: `RegistersState::code_context` returns the kernel context 0 whenever
`is_kernel` is set, regardless of the ambient `context` field, and the ambient
`context` otherwise. -/
theorem code_context_kernel_or_ambient (r : RegistersState) :
    (r.is_kernel = true → r.code_context = 0)
    ∧ (r.is_kernel = false → r.code_context = r.context) := by
  constructor <;> intro h <;> simp [RegistersState.code_context, h, KERNEL_CONTEXT]

/-- C7 witness: concrete evaluation of `code_context` in both modes, on a
kernel-mode and a user-mode register snapshot with ambient context 5. -/
theorem code_context_kernel_or_ambient_witness :
    (RegistersState.mk 7 true 0 0 false false 5 0).code_context = 0
    ∧ (RegistersState.mk 7 false 0 0 false false 5 0).code_context = 5 :=
  ⟨(code_context_kernel_or_ambient _).1 rfl, (code_context_kernel_or_ambient _).2 rfl⟩

/-- C8: the `GlobalMetadata` cardinality constant `COUNT` equals 45, the
`all()` array has length `COUNT`, and `all()` contains every variant of the
enumeration exactly once (membership plus no duplicates). -/
theorem globalMetadata_count_and_all_complete :
    GlobalMetadata.COUNT = 45
    ∧ GlobalMetadata.all.length = GlobalMetadata.COUNT
    ∧ (∀ g : GlobalMetadata, g ∈ GlobalMetadata.all)
    ∧ GlobalMetadata.all.Nodup := by
  refine ⟨rfl, rfl, by decide, by decide⟩

/-- C1: `MemoryAddress::new_u256s` fails with `ContextTooLarge` whenever the
context exceeds 32 bits; with `SegmentTooLarge` whenever the context is in
range but the segment is at least `Segment::COUNT`; with `VirtTooLarge`
whenever context and segment are in range but the virtual address exceeds 32
bits; and succeeds with the checked-down field values when no condition holds. -/
theorem new_u256s_validation (SI : SegmentInfo) (context segment virt : Nat) :
    (32 < Nat.size context →
      MemoryAddress.new_u256s SI context segment virt
        = .error (.MemoryError (.ContextTooLarge context)))
    ∧ (Nat.size context ≤ 32 → SI.count ≤ segment →
      MemoryAddress.new_u256s SI context segment virt
        = .error (.MemoryError (.SegmentTooLarge segment)))
    ∧ (Nat.size context ≤ 32 → segment < SI.count → 32 < Nat.size virt →
      MemoryAddress.new_u256s SI context segment virt
        = .error (.MemoryError (.VirtTooLarge virt)))
    ∧ (Nat.size context ≤ 32 → segment < SI.count → Nat.size virt ≤ 32 →
      MemoryAddress.new_u256s SI context segment virt
        = .ok { context := context, segment := segment, virt := virt }) := by
  unfold MemoryAddress.new_u256s
  refine ⟨fun h1 => ?_, fun h1 h2 => ?_, fun h1 h2 h3 => ?_, fun h1 h2 h3 => ?_⟩
  · rw [if_pos h1]
  · rw [if_neg (Nat.not_lt.mpr h1), if_pos h2]
  · rw [if_neg (Nat.not_lt.mpr h1), if_neg (Nat.not_le.mpr h2), if_pos h3]
  · rw [if_neg (Nat.not_lt.mpr h1), if_neg (Nat.not_le.mpr h2),
      if_neg (Nat.not_lt.mpr h3)]

/-- C1 witness: concrete evaluation of all four branches of
`MemoryAddress::new_u256s` with a two-segment table (`2 ^ 33` has 34 bits). -/
theorem new_u256s_validation_witness :
    (MemoryAddress.new_u256s ⟨2, fun _ => 256⟩ (2 ^ 33) 0 0
      = .error (.MemoryError (.ContextTooLarge (2 ^ 33))))
    ∧ (MemoryAddress.new_u256s ⟨2, fun _ => 256⟩ 1 2 0
      = .error (.MemoryError (.SegmentTooLarge 2)))
    ∧ (MemoryAddress.new_u256s ⟨2, fun _ => 256⟩ 1 1 (2 ^ 33)
      = .error (.MemoryError (.VirtTooLarge (2 ^ 33))))
    ∧ (MemoryAddress.new_u256s ⟨2, fun _ => 256⟩ 1 1 7
      = .ok { context := 1, segment := 1, virt := 7 }) := by
  have hbig : 32 < Nat.size (2 ^ 33) := Nat.lt_size.mpr (by norm_num)
  have h1 : Nat.size 1 ≤ 32 := Nat.size_le.mpr (by norm_num)
  have h7 : Nat.size 7 ≤ 32 := Nat.size_le.mpr (by norm_num)
  exact ⟨(new_u256s_validation _ _ _ _).1 hbig,
    (new_u256s_validation _ _ _ _).2.1 h1 (by norm_num),
    (new_u256s_validation _ _ _ _).2.2.1 h1 (by norm_num) hbig,
    (new_u256s_validation _ _ _ _).2.2.2 h1 (by norm_num) h7⟩

/-- C5: `MemAfterStark::generate_trace` produces exactly the real rows in their
given order followed by all-zero padding rows, with total row count
`max(16, next_power_of_two(num_rows))` — a power of two that is at least 16, at
least the number of real rows, and (final conjunct) the smallest power of two
above the real row count once the 16 floor is accounted for. -/
theorem generate_trace_rows_spec {F : Type} [Zero F] (numColumns : Nat)
    (final_values : List (List F)) :
    generate_trace_rows numColumns final_values
      = final_values
        ++ List.replicate (max 16 (next_power_of_two final_values.length)
              - final_values.length) (List.replicate numColumns 0)
    ∧ (generate_trace_rows numColumns final_values).length
        = max 16 (next_power_of_two final_values.length)
    ∧ (∃ k, (generate_trace_rows numColumns final_values).length = 2 ^ k)
    ∧ 16 ≤ (generate_trace_rows numColumns final_values).length
    ∧ final_values.length ≤ (generate_trace_rows numColumns final_values).length
    ∧ (∀ m, final_values.length ≤ 2 ^ m →
        next_power_of_two final_values.length ≤ 2 ^ m) := by
  have hle : final_values.length ≤ next_power_of_two final_values.length :=
    Nat.le_pow_clog (by norm_num) _
  have hlen : (generate_trace_rows numColumns final_values).length
      = max 16 (next_power_of_two final_values.length) := by
    simp only [generate_trace_rows, List.length_append, List.length_replicate]
    omega
  refine ⟨rfl, hlen, ?_, ?_, ?_, ?_⟩
  · rcases Nat.le_total (Nat.clog 2 final_values.length) 4 with h | h
    · refine ⟨4, ?_⟩
      have hp : (2 : Nat) ^ Nat.clog 2 final_values.length ≤ 16 :=
        le_trans (Nat.pow_le_pow_right (by norm_num) h) (by norm_num)
      rw [hlen, next_power_of_two, Nat.max_eq_left hp]
      norm_num
    · refine ⟨Nat.clog 2 final_values.length, ?_⟩
      have hp : (16 : Nat) ≤ 2 ^ Nat.clog 2 final_values.length := by
        calc (16 : Nat) = 2 ^ 4 := by norm_num
        _ ≤ 2 ^ Nat.clog 2 final_values.length := Nat.pow_le_pow_right (by norm_num) h
      rw [hlen, next_power_of_two, Nat.max_eq_right hp]
  · rw [hlen]; exact Nat.le_max_left _ _
  · rw [hlen]; exact le_trans hle (Nat.le_max_right _ _)
  · intro m hm
    exact Nat.pow_le_pow_right (by norm_num)
      ((Nat.le_pow_iff_clog_le (by norm_num)).mp hm)

/-- C5 witness: three real single-column rows pad to 16 rows with 13 zero rows,
and 4 is minimal for covering 3 rows by a power of two. -/
theorem generate_trace_rows_spec_witness :
    (generate_trace_rows 1 [[(1 : Nat)], [2], [3]]).length
      = max 16 (next_power_of_two 3)
    ∧ next_power_of_two 3 ≤ 2 ^ 2 :=
  ⟨(generate_trace_rows_spec 1 [[(1 : Nat)], [2], [3]]).2.1,
    (generate_trace_rows_spec 1 [[(1 : Nat)], [2], [3]]).2.2.2.2.2 2 (by norm_num)⟩

/-- C6: `MemoryOp::new` returns an operation with `filter = true` and
`timestamp = clock * NUM_CHANNELS + channel.index()`, where the code channel
has index 0 and general-purpose channel `n` has index `n + 1`; operations built
from distinct (clock, channel) pairs get distinct timestamps. -/
theorem memoryOp_new_timestamp_total_order (numGP : Nat) :
    (∀ clock channel address kind value i,
      MemoryChannel.index numGP channel = some i →
      MemoryOp.new numGP clock channel address kind value
        = some { filter := true, timestamp := clock * NUM_CHANNELS numGP + i,
                 address := address, kind := kind, value := value })
    ∧ MemoryChannel.index numGP MemoryChannel.Code = some 0
    ∧ (∀ n, n < numGP →
      MemoryChannel.index numGP (MemoryChannel.GeneralPurpose n) = some (n + 1))
    ∧ (∀ clock1 clock2 channel1 channel2 i1 i2,
      MemoryChannel.index numGP channel1 = some i1 →
      MemoryChannel.index numGP channel2 = some i2 →
      (clock1, channel1) ≠ (clock2, channel2) →
      clock1 * NUM_CHANNELS numGP + i1 ≠ clock2 * NUM_CHANNELS numGP + i2) := by
  have hbound : ∀ ch i, MemoryChannel.index numGP ch = some i → i < numGP + 1 := by
    intro ch i h
    cases ch with
    | Code => simp [MemoryChannel.index] at h; omega
    | GeneralPurpose n =>
      simp only [MemoryChannel.index] at h
      by_cases hn : n < numGP
      · rw [if_pos hn] at h
        simp only [Option.some.injEq] at h
        omega
      · rw [if_neg hn] at h
        exact absurd h (by simp)
  have hinj : ∀ ch1 ch2 i, MemoryChannel.index numGP ch1 = some i →
      MemoryChannel.index numGP ch2 = some i → ch1 = ch2 := by
    intro ch1 ch2 i h1 h2
    cases ch1 <;> cases ch2 <;>
      simp only [MemoryChannel.index] at h1 h2
    · rfl
    · split at h2 <;> simp_all <;> omega
    · split at h1 <;> simp_all <;> omega
    · split at h1 <;> split at h2 <;> simp_all <;> omega
  refine ⟨?_, rfl, ?_, ?_⟩
  · intro clock channel address kind value i h
    simp [MemoryOp.new, h]
  · intro n hn
    simp [MemoryChannel.index, hn]
  · intro c1 c2 ch1 ch2 i1 i2 h1 h2 hne heq
    have b1 := hbound _ _ h1
    have b2 := hbound _ _ h2
    have hN : NUM_CHANNELS numGP = numGP + 1 := rfl
    rw [hN] at heq
    have hc : c1 = c2 := by
      have d1 : i1 / (numGP + 1) = 0 := Nat.div_eq_of_lt b1
      have d2 : i2 / (numGP + 1) = 0 := Nat.div_eq_of_lt b2
      have e1 : (c1 * (numGP + 1) + i1) / (numGP + 1) = c1 := by
        rw [Nat.mul_comm, Nat.mul_add_div (by omega), d1]
        omega
      have e2 : (c2 * (numGP + 1) + i2) / (numGP + 1) = c2 := by
        rw [Nat.mul_comm, Nat.mul_add_div (by omega), d2]
        omega
      rw [← e1, ← e2, heq]
    have hi : i1 = i2 := by
      subst hc
      omega
    subst hc
    subst hi
    exact hne (by rw [hinj _ _ _ h1 h2])

/-- Helper: writing inside bounds and reading back at the written index. -/
theorem listGetD_set_self {α : Type} (l : List α) (i : Nat) (x d : α)
    (h : i < l.length) : (l.set i x).getD i d = x := by
  induction l generalizing i with
  | nil => simp at h
  | cons a l ih =>
    cases i with
    | zero => rfl
    | succ n =>
      simp only [List.set_cons_succ, List.getD_cons_succ]
      exact ih n (by simpa using h)

/-- Helper: writing at one index leaves the `getD` view at any other index
unchanged. -/
theorem listGetD_set_ne {α : Type} (l : List α) (i j : Nat) (x d : α)
    (h : i ≠ j) : (l.set i x).getD j d = l.getD j d := by
  induction l generalizing i j with
  | nil => simp [List.set]
  | cons a l ih =>
    cases i with
    | zero =>
      cases j with
      | zero => exact absurd rfl h
      | succ m => rfl
    | succ n =>
      cases j with
      | zero => rfl
      | succ m =>
        simp only [List.set_cons_succ, List.getD_cons_succ]
        exact ih n m (by omega)

/-- Helper: padding a list with copies of the default does not change its
`getD` view at that default. -/
theorem listGetD_append_replicate {α : Type} (l : List α) (n j : Nat) (d : α) :
    (l ++ List.replicate n d).getD j d = l.getD j d := by
  induction l generalizing j with
  | nil =>
    simp only [List.nil_append, List.getD_nil]
    induction n generalizing j with
    | zero => simp [List.getD_nil]
    | succ k ih =>
      cases j with
      | zero => rfl
      | succ m => simpa [List.replicate_succ] using ih m
  | cons a l ih =>
    cases j with
    | zero => rfl
    | succ m => simpa using ih m

/-- Helper: length of a segment store after `MemorySegmentState::set`. -/
theorem seg_set_length (l : List Nat) (virt v : Nat) :
    ((MemorySegmentState.mk l).set virt v).content.length = max l.length (virt + 1) := by
  simp only [MemorySegmentState.set, List.length_set, List.length_append,
    List.length_replicate]
  omega

/-- Helper: reading back the offset just written by `MemorySegmentState::set`. -/
theorem seg_set_getD_self (l : List Nat) (virt v : Nat) :
    ((MemorySegmentState.mk l).set virt v).content.getD virt 0 = v := by
  apply listGetD_set_self
  simp only [List.length_append, List.length_replicate]
  omega

/-- Helper: `MemorySegmentState::set` leaves every other offset's value (in the
`getD 0` view) unchanged. -/
theorem seg_set_getD_ne (l : List Nat) (virt v j : Nat) (h : j ≠ virt) :
    ((MemorySegmentState.mk l).set virt v).content.getD j 0 = l.getD j 0 := by
  unfold MemorySegmentState.set
  rw [listGetD_set_ne _ _ _ _ _ (Ne.symm h), listGetD_append_replicate]

/-- Helper: context count after the raw mutation of `MemoryState::set`. -/
theorem setRaw_ctxLen (s : MemoryState) (a : MemoryAddress) (v : Nat) :
    (s.setRaw a v).contexts.length = max s.contexts.length (a.context + 1) := by
  simp only [MemoryState.setRaw, List.length_set, List.length_append,
    List.length_replicate]
  omega

/-- Helper: the grown context list of `setRaw` has the same `getD` view as the
original. -/
theorem setRaw_grown_getD (s : MemoryState) (a : MemoryAddress) (c : Nat) :
    ((s.contexts ++ List.replicate (a.context + 1 - s.contexts.length)
        MemoryContextState.default).getD c MemoryContextState.default)
      = s.contexts.getD c MemoryContextState.default :=
  listGetD_append_replicate _ _ _ _

/-- Helper: the segment contents after the raw mutation of `MemoryState::set`:
the addressed (context, segment) pair gets the segment-level `set`, everything
else is untouched (newly materialized contexts stay empty, matching the empty
view of a context that does not yet exist). -/
theorem setRaw_segContent (s : MemoryState) (a : MemoryAddress) (v : Nat) (c i : Nat) :
    (s.setRaw a v).segContent c i
      = if c = a.context ∧ i = a.segment
        then ((MemorySegmentState.mk (s.segContent c i)).set a.virt v).content
        else s.segContent c i := by
  unfold MemoryState.setRaw MemoryState.segContent
  by_cases hc : c = a.context
  · subst hc
    rw [listGetD_set_self _ _ _ _ (by
      simp only [List.length_append, List.length_replicate]; omega)]
    by_cases hi : i = a.segment
    · subst hi
      rw [if_pos ⟨rfl, rfl⟩]
      dsimp only
      rw [Function.update_same, setRaw_grown_getD]
    · rw [if_neg (fun h : _ ∧ i = a.segment => hi h.2)]
      dsimp only
      rw [Function.update_noteq hi, setRaw_grown_getD]
  · rw [listGetD_set_ne _ _ _ _ _ (fun h => hc h.symm), setRaw_grown_getD,
      if_neg (fun h : c = a.context ∧ _ => hc h.1)]

/-- Helper: raw stored view after the raw mutation of `MemoryState::set`: the
written address holds the written value, every other address is unchanged. -/
theorem setRaw_peek (s : MemoryState) (a : MemoryAddress) (v : Nat) (b : MemoryAddress) :
    (s.setRaw a v).peek b = if b = a then v else s.peek b := by
  unfold MemoryState.peek
  rw [setRaw_segContent]
  by_cases hb : b = a
  · subst hb
    rw [if_pos ⟨rfl, rfl⟩, if_pos rfl]
    exact seg_set_getD_self _ _ _
  · rw [if_neg hb]
    by_cases hc : b.context = a.context ∧ b.segment = a.segment
    · rw [if_pos hc]
      have hv : b.virt ≠ a.virt := by
        intro hv
        exact hb (MemoryAddress.ext hc.1 hc.2 hv)
      rw [hc.1, hc.2] at *
      exact seg_set_getD_ne _ _ _ _ hv
    · rw [if_neg hc]

/-- Helper: the raw stored view of an address in a context that does not exist
is 0. -/
theorem peek_of_ctx_ge (s : MemoryState) (b : MemoryAddress)
    (h : s.contexts.length ≤ b.context) : s.peek b = 0 := by
  unfold MemoryState.peek MemoryState.segContent
  rw [List.getD_eq_default _ _ h]
  rfl

/-- Helper: `MemoryState::get` written through the `peek` view. -/
theorem get_eq_peek (s : MemoryState) (SI : SegmentInfo) (a : MemoryAddress) :
    s.get SI a
      = if s.contexts.length ≤ a.context then some 0
        else if a.segment < SI.count then
          (if Nat.size (s.peek a) ≤ SI.bit_range a.segment then some (s.peek a) else none)
        else none := rfl

/-- C3: `MemoryState::get` returns 0 for any address in a context at or beyond
the current context count, and returns 0 (rather than failing) for any
never-written offset — one at or beyond the segment's stored content — in an
existing or non-existing context. -/
theorem get_bounds_safe_zero (SI : SegmentInfo) (s : MemoryState) (a : MemoryAddress) :
    (s.contexts.length ≤ a.context → s.get SI a = some 0)
    ∧ (a.segment < SI.count → (s.segContent a.context a.segment).length ≤ a.virt →
        s.get SI a = some 0) := by
  constructor
  · intro h
    rw [get_eq_peek, if_pos h]
  · intro hseg hv
    rw [get_eq_peek]
    by_cases hc : s.contexts.length ≤ a.context
    · rw [if_pos hc]
    · have hp : s.peek a = 0 := List.getD_eq_default _ _ hv
      rw [if_neg hc, if_pos hseg, hp]
      rw [if_pos (by rw [Nat.size_zero]; exact Nat.zero_le _)]

/-- C3 witness: on the default (single-context) state, reading context 5 and
reading offset 3 of the empty code segment of context 0 both yield 0. -/
theorem get_bounds_safe_zero_witness :
    MemoryState.default.get ⟨1, fun _ => 256⟩ ⟨5, 0, 3⟩ = some 0
    ∧ MemoryState.default.get ⟨1, fun _ => 256⟩ ⟨0, 0, 3⟩ = some 0 :=
  ⟨(get_bounds_safe_zero ⟨1, fun _ => 256⟩ MemoryState.default ⟨5, 0, 3⟩).1
      (by norm_num [MemoryState.default]),
    (get_bounds_safe_zero ⟨1, fun _ => 256⟩ MemoryState.default ⟨0, 0, 3⟩).2
      (by norm_num) (Nat.zero_le _)⟩

/-- C4: for a valid segment index, `MemoryState::set` succeeds exactly when the
value's bit length is within the segment's declared bit range and aborts
(panics, modelled as `none`, not a recoverable error value) otherwise; and
`MemoryState::get` on an existing context likewise aborts when the stored
value violates the segment's declared bit range. -/
theorem set_get_assert_bit_range (SI : SegmentInfo) (s : MemoryState)
    (a : MemoryAddress) (v : Nat) (hseg : a.segment < SI.count) :
    (Nat.size v ≤ SI.bit_range a.segment → s.set SI a v = some (s.setRaw a v))
    ∧ (SI.bit_range a.segment < Nat.size v → s.set SI a v = none)
    ∧ (a.context < s.contexts.length → SI.bit_range a.segment < Nat.size (s.peek a) →
        s.get SI a = none) := by
  refine ⟨fun hfit => ?_, fun hviol => ?_, fun hctx hviol => ?_⟩
  · rw [MemoryState.set, if_pos hseg, if_pos hfit]
  · rw [MemoryState.set, if_pos hseg, if_neg (Nat.not_le.mpr hviol)]
  · rw [get_eq_peek, if_neg (Nat.not_le.mpr hctx), if_pos hseg,
      if_neg (Nat.not_le.mpr hviol)]

/-- C4 witness: with a declared bit range of 2, storing 1 succeeds, storing 7
(3 bits) aborts, and reading an address that already holds 7 aborts. -/
theorem set_get_assert_bit_range_witness :
    MemoryState.default.set ⟨1, fun _ => 2⟩ ⟨0, 0, 0⟩ 1
      = some (MemoryState.default.setRaw ⟨0, 0, 0⟩ 1)
    ∧ MemoryState.default.set ⟨1, fun _ => 2⟩ ⟨0, 0, 0⟩ 7 = none
    ∧ (MemoryState.default.setRaw ⟨0, 0, 0⟩ 7).get ⟨1, fun _ => 2⟩ ⟨0, 0, 0⟩ = none := by
  have h1 : Nat.size 1 ≤ 2 := Nat.size_le.mpr (by norm_num)
  have h7 : 2 < Nat.size 7 := Nat.lt_size.mpr (by norm_num)
  refine ⟨(set_get_assert_bit_range _ _ _ 1 (by norm_num)).1 h1,
    (set_get_assert_bit_range _ _ _ 7 (by norm_num)).2.1 h7,
    (set_get_assert_bit_range _ _ _ 7 (by norm_num)).2.2 ?_ ?_⟩
  · show 0 < (MemoryState.default.setRaw ⟨0, 0, 0⟩ 7).contexts.length
    rw [setRaw_ctxLen]
    norm_num [MemoryState.default]
  · have hp : (MemoryState.default.setRaw ⟨0, 0, 0⟩ 7).peek ⟨0, 0, 0⟩ = 7 := by
      rw [setRaw_peek, if_pos rfl]
    rw [hp]
    exact h7

/-- C10: after a `set` of a value within the addressed segment's declared bit
range, `get` at the written address returns exactly that value, and `get` at
every other (valid-segment) address is unchanged — contexts or offsets
materialized by the write only hold zeros, which is what `get` reported for
them before. -/
theorem set_then_get (SI : SegmentInfo) (s : MemoryState) (a b : MemoryAddress)
    (v : Nat) (hseg : a.segment < SI.count)
    (hfit : Nat.size v ≤ SI.bit_range a.segment) (hbseg : b.segment < SI.count) :
    s.set SI a v = some (s.setRaw a v)
    ∧ (s.setRaw a v).get SI a = some v
    ∧ (b ≠ a → (s.setRaw a v).get SI b = s.get SI b) := by
  refine ⟨(set_get_assert_bit_range SI s a v hseg).1 hfit, ?_, fun hb => ?_⟩
  · have hctx : ¬ (s.setRaw a v).contexts.length ≤ a.context := by
      rw [setRaw_ctxLen]; omega
    have hp : (s.setRaw a v).peek a = v := by rw [setRaw_peek, if_pos rfl]
    rw [get_eq_peek, if_neg hctx, if_pos hseg, hp, if_pos hfit]
  · have hp : (s.setRaw a v).peek b = s.peek b := by rw [setRaw_peek, if_neg hb]
    rw [get_eq_peek, get_eq_peek, setRaw_ctxLen, hp]
    by_cases h1 : s.contexts.length ≤ b.context
    · by_cases h2 : max s.contexts.length (a.context + 1) ≤ b.context
      · rw [if_pos h2, if_pos h1]
      · have hp0 : s.peek b = 0 := peek_of_ctx_ge s b h1
        rw [if_neg h2, if_pos h1, if_pos hbseg, hp0,
          if_pos (by rw [Nat.size_zero]; exact Nat.zero_le _)]
    · rw [if_neg (by omega), if_neg h1]

/-- C10 witness: on the default state with two 256-bit segments, writing 9 at
context 1, segment 1, offset 2 reads back as 9, and the untouched address at
context 0, segment 1, offset 2 still reads 0. -/
theorem set_then_get_witness :
    (MemoryState.default.setRaw ⟨1, 1, 2⟩ 9).get ⟨2, fun _ => 256⟩ ⟨1, 1, 2⟩ = some 9
    ∧ (MemoryState.default.setRaw ⟨1, 1, 2⟩ 9).get ⟨2, fun _ => 256⟩ ⟨0, 1, 2⟩
        = MemoryState.default.get ⟨2, fun _ => 256⟩ ⟨0, 1, 2⟩ := by
  have h9 : Nat.size 9 ≤ 256 := Nat.size_le.mpr (by norm_num)
  exact ⟨(set_then_get ⟨2, fun _ => 256⟩ MemoryState.default ⟨1, 1, 2⟩ ⟨0, 1, 2⟩ 9
      (by norm_num) h9 (by norm_num)).2.1,
    (set_then_get ⟨2, fun _ => 256⟩ MemoryState.default ⟨1, 1, 2⟩ ⟨0, 1, 2⟩ 9
      (by norm_num) h9 (by norm_num)).2.2 (by decide)⟩

/-- Helper: success/shape inversion for `MemoryState::set`. -/
theorem set_eq_some_iff (SI : SegmentInfo) (s : MemoryState) (a : MemoryAddress)
    (v : Nat) (s1 : MemoryState) :
    s.set SI a v = some s1 ↔
      a.segment < SI.count ∧ Nat.size v ≤ SI.bit_range a.segment ∧ s1 = s.setRaw a v := by
  unfold MemoryState.set
  by_cases h1 : a.segment < SI.count
  · by_cases h2 : Nat.size v ≤ SI.bit_range a.segment
    · rw [if_pos h1, if_pos h2]
      constructor
      · intro h
        exact ⟨h1, h2, (Option.some.injEq _ _ ▸ h).symm⟩
      · intro ⟨_, _, h⟩
        rw [h]
    · rw [if_pos h1, if_neg h2]
      simp [h2]
  · rw [if_neg h1]
    simp [h1]

/-- Helper: a successful replay means every write in the list was in range. -/
theorem apply_ops_ok_of_some (SI : SegmentInfo) :
    ∀ (ops : List MemoryOp) (s t : MemoryState),
      apply_ops SI s ops = some t → ∀ op ∈ ops, opOk SI op := by
  intro ops
  induction ops with
  | nil => intro s t _ op hop; simp at hop
  | cons op rest ih =>
    intro s t h op' hop'
    rw [apply_ops] at h
    by_cases hk : op.kind = MemoryOpKind.Write
    · rw [if_pos hk] at h
      cases hset : MemoryState.set s SI op.address op.value with
      | none => rw [hset] at h; exact absurd h (by simp)
      | some s1 =>
        rw [hset] at h
        rcases List.mem_cons.mp hop' with rfl | h'
        · exact fun _ => ⟨((set_eq_some_iff _ _ _ _ _).mp hset).1,
            ((set_eq_some_iff _ _ _ _ _).mp hset).2.1⟩
        · exact ih s1 t h op' h'
    · rw [if_neg hk] at h
      rcases List.mem_cons.mp hop' with rfl | h'
      · exact fun hw => absurd hw hk
      · exact ih s t h op' h'

/-- Helper: a list of in-range operations replays successfully from any state. -/
theorem apply_ops_some_of_ok (SI : SegmentInfo) :
    ∀ (ops : List MemoryOp), (∀ op ∈ ops, opOk SI op) →
      ∀ s : MemoryState, ∃ t, apply_ops SI s ops = some t := by
  intro ops
  induction ops with
  | nil => intro _ s; exact ⟨s, rfl⟩
  | cons op rest ih =>
    intro hok s
    rw [apply_ops]
    by_cases hk : op.kind = MemoryOpKind.Write
    · rw [if_pos hk]
      obtain ⟨hseg, hfit⟩ := hok op (List.mem_cons_self op rest) hk
      rw [(set_eq_some_iff SI s op.address op.value (s.setRaw op.address op.value)).mpr
        ⟨hseg, hfit, rfl⟩]
      exact ih (fun o ho => hok o (List.mem_cons_of_mem op ho)) _
    · rw [if_neg hk]
      exact ih (fun o ho => hok o (List.mem_cons_of_mem op ho)) s

/-- Helper: replaying a list of reads leaves the state untouched. -/
theorem apply_ops_reads_noop (SI : SegmentInfo) :
    ∀ (ops : List MemoryOp) (s : MemoryState),
      (∀ op ∈ ops, op.kind = MemoryOpKind.Read) → apply_ops SI s ops = some s := by
  intro ops
  induction ops with
  | nil => intro s _; rfl
  | cons op rest ih =>
    intro s hr
    rw [apply_ops, if_neg (by rw [hr op (List.mem_cons_self op rest)]; simp)]
    exact ih s fun o ho => hr o (List.mem_cons_of_mem op ho)

/-- Helper: the context count after a successful replay. -/
theorem apply_ops_ctxLen (SI : SegmentInfo) :
    ∀ (ops : List MemoryOp) (s t : MemoryState), apply_ops SI s ops = some t →
      t.contexts.length = max s.contexts.length (needCtx ops) := by
  intro ops
  induction ops with
  | nil =>
    intro s t h
    cases h
    rw [needCtx]
    omega
  | cons op rest ih =>
    intro s t h
    rw [apply_ops] at h
    rw [needCtx]
    by_cases hk : op.kind = MemoryOpKind.Write
    · rw [if_pos hk] at h
      cases hset : MemoryState.set s SI op.address op.value with
      | none => rw [hset] at h; exact absurd h (by simp)
      | some s1 =>
        rw [hset] at h
        obtain ⟨-, -, rfl⟩ := (set_eq_some_iff _ _ _ _ _).mp hset
        have h1 := ih _ _ h
        rw [setRaw_ctxLen] at h1
        rw [if_pos hk, h1]
        omega
    · rw [if_neg hk] at h
      rw [if_neg hk, ih _ _ h]
      omega

/-- Helper: each (context, segment) content length after a successful replay. -/
theorem apply_ops_segLen (SI : SegmentInfo) :
    ∀ (ops : List MemoryOp) (s t : MemoryState), apply_ops SI s ops = some t →
      ∀ c i, (t.segContent c i).length
        = max (s.segContent c i).length (needLen ops c i) := by
  intro ops
  induction ops with
  | nil =>
    intro s t h c i
    cases h
    rw [needLen]
    omega
  | cons op rest ih =>
    intro s t h c i
    rw [apply_ops] at h
    rw [needLen]
    by_cases hk : op.kind = MemoryOpKind.Write
    · rw [if_pos hk] at h
      cases hset : MemoryState.set s SI op.address op.value with
      | none => rw [hset] at h; exact absurd h (by simp)
      | some s1 =>
        rw [hset] at h
        obtain ⟨-, -, rfl⟩ := (set_eq_some_iff _ _ _ _ _).mp hset
        have h1 := ih _ _ h c i
        rw [setRaw_segContent] at h1
        by_cases hci : c = op.address.context ∧ i = op.address.segment
        · rw [if_pos hci] at h1
          rw [seg_set_length] at h1
          rw [if_pos ⟨hk, hci.1.symm, hci.2.symm⟩, h1]
          omega
        · rw [if_neg hci] at h1
          rw [if_neg (fun hx : _ ∧ _ ∧ _ => hci ⟨hx.2.1.symm, hx.2.2.symm⟩), h1]
          omega
    · rw [if_neg hk] at h
      rw [if_neg (fun hx : _ ∧ _ ∧ _ => hk hx.1), ih _ _ h c i]
      omega

/-- Helper: the raw stored view after a successful replay: the last write at an
address if any, otherwise the starting view. -/
theorem apply_ops_peek (SI : SegmentInfo) :
    ∀ (ops : List MemoryOp) (s t : MemoryState), apply_ops SI s ops = some t →
      ∀ b, t.peek b = (lastWrite ops b).getD (s.peek b) := by
  intro ops
  induction ops with
  | nil =>
    intro s t h b
    cases h
    rfl
  | cons op rest ih =>
    intro s t h b
    rw [apply_ops] at h
    rw [lastWrite]
    by_cases hk : op.kind = MemoryOpKind.Write
    · rw [if_pos hk] at h
      cases hset : MemoryState.set s SI op.address op.value with
      | none => rw [hset] at h; exact absurd h (by simp)
      | some s1 =>
        rw [hset] at h
        obtain ⟨-, -, rfl⟩ := (set_eq_some_iff _ _ _ _ _).mp hset
        have h1 := ih _ _ h b
        rw [setRaw_peek] at h1
        cases hlw : lastWrite rest b with
        | some w => rw [hlw] at h1; exact h1
        | none =>
          rw [hlw] at h1
          by_cases hab : op.address = b
          · rw [if_pos ⟨hk, hab⟩]
            rw [if_pos hab.symm] at h1
            exact h1
          · rw [if_neg (fun hx : _ ∧ _ => hab hx.2)]
            rw [if_neg (fun hx => hab hx.symm)] at h1
            exact h1
    · rw [if_neg hk] at h
      have hor : (lastWrite rest b).or none = lastWrite rest b := by
        cases lastWrite rest b <;> rfl
      rw [if_neg (fun hx : _ ∧ _ => hk hx.1), hor, ih _ _ h b]

/-- Helper: a memory state is determined by its context count and per-context,
per-segment content lists. -/
theorem memoryState_eq_of_views (s t : MemoryState)
    (hlen : s.contexts.length = t.contexts.length)
    (hseg : ∀ c i, s.segContent c i = t.segContent c i) : s = t := by
  apply MemoryState.ext
  apply List.ext_getElem hlen
  intro c h1 h2
  have hcc : ∀ i, (s.contexts[c]).segments i = (t.contexts[c]).segments i := by
    intro i
    apply MemorySegmentState.ext
    have h := hseg c i
    unfold MemoryState.segContent at h
    rwa [List.getD_eq_getElem _ _ h1, List.getD_eq_getElem _ _ h2] at h
  exact MemoryContextState.ext (funext hcc)

/-- C2: `MemoryState::apply_ops` leaves the state unchanged when every
operation is a `Read`, and replaying the same operation list a second time,
immediately after a first successful replay, reproduces the same final state
(write values are absolute, not deltas). -/
theorem apply_ops_reads_and_replay_idempotent (SI : SegmentInfo) (s : MemoryState)
    (ops : List MemoryOp) :
    ((∀ op ∈ ops, op.kind = MemoryOpKind.Read) → apply_ops SI s ops = some s)
    ∧ (∀ t, apply_ops SI s ops = some t → apply_ops SI t ops = some t) := by
  constructor
  · exact apply_ops_reads_noop SI ops s
  · intro t h
    obtain ⟨t', ht'⟩ :=
      apply_ops_some_of_ok SI ops (apply_ops_ok_of_some SI ops s t h) t
    have hv : ∀ b : MemoryAddress, t'.peek b = t.peek b := by
      intro b
      rw [apply_ops_peek SI ops t t' ht' b, apply_ops_peek SI ops s t h b]
      cases lastWrite ops b <;> simp
    have hEq : t' = t := by
      apply memoryState_eq_of_views
      · rw [apply_ops_ctxLen SI ops t t' ht', apply_ops_ctxLen SI ops s t h]
        omega
      · intro c i
        have hl : (t'.segContent c i).length = (t.segContent c i).length := by
          rw [apply_ops_segLen SI ops t t' ht' c i, apply_ops_segLen SI ops s t h c i]
          omega
        apply List.ext_getElem hl
        intro j hj1 hj2
        have hb := hv ⟨c, i, j⟩
        unfold MemoryState.peek at hb
        dsimp only at hb
        rwa [List.getD_eq_getElem _ _ hj1, List.getD_eq_getElem _ _ hj2] at hb
    rw [hEq] at ht'
    exact ht'

/-- C2 witness: a read-only log is a no-op on the default state, and (applying
the idempotence part to that successful replay) replaying it from the reached
state reproduces that state. -/
theorem apply_ops_reads_and_replay_idempotent_witness :
    apply_ops ⟨1, fun _ => 256⟩ MemoryState.default
        [MemoryOp.mk true 0 ⟨0, 0, 0⟩ MemoryOpKind.Read 0] = some MemoryState.default := by
  have h :=
    (apply_ops_reads_and_replay_idempotent ⟨1, fun _ => 256⟩ MemoryState.default
      [MemoryOp.mk true 0 ⟨0, 0, 0⟩ MemoryOpKind.Read 0]).1 (by
        intro op hop
        rw [List.mem_singleton] at hop
        rw [hop])
  exact (apply_ops_reads_and_replay_idempotent ⟨1, fun _ => 256⟩ MemoryState.default
    [MemoryOp.mk true 0 ⟨0, 0, 0⟩ MemoryOpKind.Read 0]).2 MemoryState.default h

/-- C6 witness: with two general-purpose channels, the code channel at clock 0
and general-purpose channel 0 at clock 0 produce the distinct timestamps 0 and
1, and `MemoryOp::new` fills the fields as specified. -/
theorem memoryOp_new_timestamp_total_order_witness :
    MemoryOp.new 2 0 MemoryChannel.Code ⟨0, 0, 0⟩ MemoryOpKind.Read 5
      = some { filter := true, timestamp := 0, address := ⟨0, 0, 0⟩,
               kind := MemoryOpKind.Read, value := 5 }
    ∧ 0 * NUM_CHANNELS 2 + 0 ≠ 0 * NUM_CHANNELS 2 + 1 := by
  constructor
  · exact (memoryOp_new_timestamp_total_order 2).1 0 _ _ _ 5 0 rfl
  · exact (memoryOp_new_timestamp_total_order 2).2.2.2 0 0 MemoryChannel.Code
      (MemoryChannel.GeneralPurpose 0) 0 1 rfl
      ((memoryOp_new_timestamp_total_order 2).2.2.1 0 (by norm_num)) (by decide)

namespace QuarticCrandallField

/-- Helper: the ring addition is the componentwise `qadd`. -/
theorem add_def {p : Nat} (x y : QuarticCrandallField p) :
    x + y = ⟨x.a0 + y.a0, x.a1 + y.a1, x.a2 + y.a2, x.a3 + y.a3⟩ := rfl

/-- Helper: the ring multiplication is the source's quartic product. -/
theorem mul_def {p : Nat} (x y : QuarticCrandallField p) :
    x * y = ⟨x.a0 * y.a0 + W p * (x.a1 * y.a3 + x.a2 * y.a2 + x.a3 * y.a1),
      x.a0 * y.a1 + x.a1 * y.a0 + W p * (x.a2 * y.a3 + x.a3 * y.a2),
      x.a0 * y.a2 + x.a1 * y.a1 + x.a2 * y.a0 + W p * (x.a3 * y.a3),
      x.a0 * y.a3 + x.a1 * y.a2 + x.a2 * y.a1 + x.a3 * y.a0⟩ := rfl

/-- Helper: the ring zero, componentwise. -/
theorem zero_def {p : Nat} : (0 : QuarticCrandallField p) = ⟨0, 0, 0, 0⟩ := rfl

/-- Helper: the ring one, componentwise. -/
theorem one_def {p : Nat} : (1 : QuarticCrandallField p) = ⟨1, 0, 0, 0⟩ := rfl

/-- Helper: the base-field embedding is multiplicative. -/
theorem iota_mul {p : Nat} (c d : ZMod p) : iota (c * d) = iota c * iota d := by
  apply QuarticCrandallField.ext <;> simp only [iota, mul_def, W] <;> ring

/-- Helper: the base-field embedding commutes with powers. -/
theorem iota_pow {p : Nat} (c : ZMod p) (n : Nat) : iota (c ^ n) = iota c ^ n := by
  induction n with
  | zero => rw [pow_zero, pow_zero]; rfl
  | succ n ih => rw [pow_succ, pow_succ, iota_mul, ih]

/-- Helper: the square of the generator. -/
theorem root_sq (p : Nat) : (root p) ^ 2 = ⟨0, 0, 1, 0⟩ := by
  rw [sq]
  apply QuarticCrandallField.ext <;> simp only [root, mul_def, W] <;> ring

/-- Helper: the cube of the generator. -/
theorem root_cube (p : Nat) : (root p) ^ 3 = ⟨0, 0, 0, 1⟩ := by
  have h3 : (3 : Nat) = 2 + 1 := rfl
  rw [h3, pow_succ, root_sq]
  apply QuarticCrandallField.ext <;> simp only [root, mul_def, W] <;> ring

/-- Helper: the generator satisfies `X^4 = W`. -/
theorem root_pow_four (p : Nat) : (root p) ^ 4 = iota (W p) := by
  have h4 : (4 : Nat) = 3 + 1 := rfl
  rw [h4, pow_succ, root_cube]
  apply QuarticCrandallField.ext <;> simp only [root, iota, mul_def, W] <;> ring

/-- Helper: the power-basis decomposition of a quartic element. -/
theorem decompose {p : Nat} (x : QuarticCrandallField p) :
    x = iota x.a0 + iota x.a1 * root p + iota x.a2 * (root p) ^ 2
      + iota x.a3 * (root p) ^ 3 := by
  rw [root_sq, root_cube]
  apply QuarticCrandallField.ext <;>
    simp only [iota, root, mul_def, add_def, W] <;> ring

/-- Helper: over the field-product semantics, the Frobenius endomorphism of
the quartic field is raising to the base field's order, the characteristic
`p`. -/
theorem frobenius_eq_pow_card {p : Nat} [Fact p.Prime] (hp4 : p % 4 = 1)
    (x : QuarticCrandallField p) : frobenius x = x ^ p := by
  have hk : 4 * ((p - 1) / 4) + 1 = p := by
    have h2 := (Fact.out : p.Prime).two_le
    omega
  have h1 : (root p) ^ p = (root p) ^ (4 * ((p - 1) / 4) + 1) := by rw [hk]
  have hroot : (root p) ^ p = iota (W p ^ ((p - 1) / 4)) * root p := by
    rw [h1, pow_succ, pow_mul, root_pow_four, ← iota_pow]
  have hu2 : (iota (W p ^ ((p - 1) / 4)) * root p) ^ 2
      = iota ((W p ^ ((p - 1) / 4)) ^ 2) * (root p) ^ 2 := by
    rw [mul_pow, ← iota_pow]
  have hu3 : (iota (W p ^ ((p - 1) / 4)) * root p) ^ 3
      = iota ((W p ^ ((p - 1) / 4)) ^ 3) * (root p) ^ 3 := by
    rw [mul_pow, ← iota_pow]
  have key : x ^ p
      = iota x.a0 + iota x.a1 * (root p) ^ p + iota x.a2 * ((root p) ^ p) ^ 2
        + iota x.a3 * ((root p) ^ p) ^ 3 := by
    conv_lhs => rw [decompose x]
    rw [add_pow_char, add_pow_char, add_pow_char,
      mul_pow, mul_pow, mul_pow,
      ← iota_pow, ← iota_pow, ← iota_pow, ← iota_pow,
      ZMod.pow_card, ZMod.pow_card, ZMod.pow_card, ZMod.pow_card,
      pow_right_comm (root p) 2 p, pow_right_comm (root p) 3 p]
  rw [key, hroot, hu2, hu3, root_sq, root_cube]
  apply QuarticCrandallField.ext <;>
    simp only [frobenius, iota, root, mul_def, add_def, W] <;> ring

/-- Helper: 3 is nonzero in the base field when it is a non-square. -/
theorem three_ne_zero_of_not_sq {p : Nat} (h3 : ∀ b : ZMod p, b ^ 2 ≠ 3) :
    (3 : ZMod p) ≠ 0 := by
  intro h
  apply h3 0
  rw [h]
  ring

/-- Helper: the characteristic exceeds 2 under the `p % 4 = 1` hypothesis. -/
theorem two_lt_p {p : Nat} [Fact p.Prime] (hp4 : p % 4 = 1) : 2 < p := by
  have h2 := (Fact.out : p.Prime).two_le
  omega

/-- Helper: `-1 ≠ 1` in the base field. -/
theorem neg_one_ne_one {p : Nat} [Fact p.Prime] (hp4 : p % 4 = 1) :
    (-1 : ZMod p) ≠ 1 := by
  intro h
  have h2 : ((2 : Nat) : ZMod p) = 0 := by push_cast; linear_combination -h
  have hdvd : p ∣ 2 := (CharP.cast_eq_zero_iff (ZMod p) p 2).mp h2
  have := Nat.le_of_dvd (by norm_num) hdvd
  have := two_lt_p hp4
  omega

/-- Helper: the source's `z0 = W^((ORDER - 1) / 4)` squares to `-1` when 3 is a
non-square (Euler's criterion). -/
theorem z0_sq {p : Nat} [Fact p.Prime] (hp4 : p % 4 = 1)
    (h3 : ∀ b : ZMod p, b ^ 2 ≠ 3) : (W p ^ ((p - 1) / 4)) ^ 2 = -1 := by
  have h30 := three_ne_zero_of_not_sq h3
  have h2 := (Fact.out : p.Prime).two_le
  have h2k : ((p - 1) / 4) * 2 = p / 2 := by omega
  have hsq : ¬ IsSquare (3 : ZMod p) := by
    rintro ⟨r, hr⟩
    exact h3 r (by rw [sq, ← hr])
  have hne1 : (3 : ZMod p) ^ (p / 2) ≠ 1 :=
    fun h => hsq ((ZMod.euler_criterion p h30).mpr h)
  have hone : (3 : ZMod p) ^ (p / 2) * (3 : ZMod p) ^ (p / 2) = 1 := by
    rw [← pow_add, (by omega : p / 2 + p / 2 = p - 1)]
    exact ZMod.pow_card_sub_one_eq_one h30
  have hval : (3 : ZMod p) ^ (p / 2) = -1 :=
    (mul_self_eq_one_iff.mp hone).resolve_left hne1
  calc (W p ^ ((p - 1) / 4)) ^ 2 = (3 : ZMod p) ^ (((p - 1) / 4) * 2) := by
        rw [W, ← pow_mul]
  _ = -1 := by rw [h2k, hval]

/-- Helper: a fixed point of the Frobenius lies in the base field. -/
theorem frobenius_fixed_point {p : Nat} [Fact p.Prime] (hp4 : p % 4 = 1)
    (h3 : ∀ b : ZMod p, b ^ 2 ≠ 3) (y : QuarticCrandallField p)
    (hy : frobenius y = y) : y = iota y.a0 := by
  have hz2 : (W p ^ ((p - 1) / 4)) ^ 2 = -1 := z0_sq hp4 h3
  have hm1 : (-1 : ZMod p) ≠ 1 := neg_one_ne_one hp4
  have hz1 : W p ^ ((p - 1) / 4) ≠ 1 := by
    intro h
    apply hm1
    rw [← hz2, h, one_pow]
  have hz3 : (W p ^ ((p - 1) / 4)) ^ 3 ≠ 1 := by
    intro h
    have hneg : W p ^ ((p - 1) / 4) = -1 := by
      linear_combination -h + W p ^ ((p - 1) / 4) * hz2
    apply hm1
    rw [← hz2, hneg]
    ring
  have h1 := congrArg QuarticCrandallField.a1 hy
  have h2 := congrArg QuarticCrandallField.a2 hy
  have h3' := congrArg QuarticCrandallField.a3 hy
  simp only [frobenius] at h1 h2 h3'
  have e1 : y.a1 = 0 := by
    have hfac : y.a1 * (W p ^ ((p - 1) / 4) - 1) = 0 := by linear_combination h1
    rcases mul_eq_zero.mp hfac with h | h
    · exact h
    · exact absurd (by linear_combination h) hz1
  have e2 : y.a2 = 0 := by
    have hfac : y.a2 * ((W p ^ ((p - 1) / 4)) ^ 2 - 1) = 0 := by linear_combination h2
    rw [hz2] at hfac
    rcases mul_eq_zero.mp hfac with h | h
    · exact h
    · exact absurd (by linear_combination h) hm1
  have e3 : y.a3 = 0 := by
    have hfac : y.a3 * ((W p ^ ((p - 1) / 4)) ^ 3 - 1) = 0 := by linear_combination h3'
    rcases mul_eq_zero.mp hfac with h | h
    · exact h
    · exact absurd (by linear_combination h) hz3
  apply QuarticCrandallField.ext <;> simp [iota, e1, e2, e3]

/-- Helper: `u² = 3v²` forces `u = v = 0` when 3 is a non-square. -/
theorem sq_eq_three_mul_sq {p : Nat} [Fact p.Prime]
    (h3 : ∀ b : ZMod p, b ^ 2 ≠ 3) (u v : ZMod p) (h : u ^ 2 = 3 * v ^ 2) :
    u = 0 ∧ v = 0 := by
  by_cases hv : v = 0
  · subst hv
    refine ⟨?_, rfl⟩
    have hu : u ^ 2 = 0 := by rw [h]; ring
    exact (pow_eq_zero_iff (by norm_num)).mp hu
  · exfalso
    apply h3 (u * v⁻¹)
    have hv2 : v ^ 2 ≠ 0 := pow_ne_zero _ hv
    field_simp
    linear_combination h

/-- Helper: vanishing of the quadratic-tower norm forces all four components
to vanish (this is where irreducibility of `X^4 - 3`, in the guise of 3 being
a non-square mod a `p ≡ 1 mod 4` prime, enters). -/
theorem norm_components_zero {p : Nat} [Fact p.Prime] (hp4 : p % 4 = 1)
    (h3 : ∀ b : ZMod p, b ^ 2 ≠ 3) (a0 a1 a2 a3 : ZMod p)
    (h0 : a0 ^ 2 + 3 * a2 ^ 2 - 6 * (a1 * a3) = 0)
    (h1 : 2 * (a0 * a2) - a1 ^ 2 - 3 * a3 ^ 2 = 0) :
    a0 = 0 ∧ a1 = 0 ∧ a2 = 0 ∧ a3 = 0 := by
  obtain ⟨c, hc'⟩ := (ZMod.exists_sq_eq_neg_one_iff (p := p)).mpr (by omega)
  have hc : c ^ 2 = -1 := by rw [sq]; exact hc'.symm
  have hc0 : c ≠ 0 := by
    intro h
    rw [h] at hc
    exact one_ne_zero (by linear_combination hc : (1 : ZMod p) = 0)
  have hstep : a1 = 0 ∧ a3 = 0 := by
    by_cases hn : a1 ^ 2 - 3 * a3 ^ 2 = 0
    · exact sq_eq_three_mul_sq h3 a1 a3 (by linear_combination hn)
    · exfalso
      have hu : (a0 * a1 - 3 * (a2 * a3)) ^ 2 + 3 * (a2 * a1 - a0 * a3) ^ 2 = 0 := by
        linear_combination (a1 ^ 2 + 3 * a3 ^ 2) * h0 - 6 * (a1 * a3) * h1
      have hv : 2 * ((a0 * a1 - 3 * (a2 * a3)) * (a2 * a1 - a0 * a3))
          = (a1 ^ 2 - 3 * a3 ^ 2) ^ 2 := by
        linear_combination (-2) * (a1 * a3) * h0 + (a1 ^ 2 + 3 * a3 ^ 2) * h1
      have hcu : (c * (a0 * a1 - 3 * (a2 * a3))) ^ 2 = 3 * (a2 * a1 - a0 * a3) ^ 2 := by
        linear_combination (a0 * a1 - 3 * (a2 * a3)) ^ 2 * hc - hu
      obtain ⟨hcu0, hv0⟩ := sq_eq_three_mul_sq h3 _ _ hcu
      have hu0 : a0 * a1 - 3 * (a2 * a3) = 0 := by
        rcases mul_eq_zero.mp hcu0 with h | h
        · exact absurd h hc0
        · exact h
      apply hn
      have hzero : (a1 ^ 2 - 3 * a3 ^ 2) ^ 2 = 0 := by rw [← hv, hu0, hv0]; ring
      exact (pow_eq_zero_iff (by norm_num)).mp hzero
  obtain ⟨e1, e3⟩ := hstep
  have hca0 : (c * a0) ^ 2 = 3 * a2 ^ 2 := by
    linear_combination a0 ^ 2 * hc - h0 - 6 * a3 * e1
  obtain ⟨hca00, e2⟩ := sq_eq_three_mul_sq h3 _ _ hca0
  have e0 : a0 = 0 := by
    rcases mul_eq_zero.mp hca00 with h | h
    · exact absurd h hc0
    · exact h
  exact ⟨e0, e1, e2, e3⟩

/-- Helper: the product with the quadratic conjugate lands in the quadratic
subfield, with the stated components. -/
theorem mul_conj {p : Nat} (x : QuarticCrandallField p) :
    x * conj x
      = ⟨x.a0 ^ 2 + 3 * x.a2 ^ 2 - 6 * (x.a1 * x.a3), 0,
         2 * (x.a0 * x.a2) - x.a1 ^ 2 - 3 * x.a3 ^ 2, 0⟩ := by
  apply QuarticCrandallField.ext <;> simp only [conj, mul_def, W] <;> ring

/-- Helper: the quadratic-conjugate product of a nonzero element is nonzero. -/
theorem mul_conj_ne_zero {p : Nat} [Fact p.Prime] (hp4 : p % 4 = 1)
    (h3 : ∀ b : ZMod p, b ^ 2 ≠ 3) (x : QuarticCrandallField p) (hx : x ≠ 0) :
    x * conj x ≠ 0 := by
  intro h
  rw [mul_conj, zero_def, mk.injEq] at h
  obtain ⟨h0, -, h2, -⟩ := h
  obtain ⟨e0, e1, e2, e3⟩ := norm_components_zero hp4 h3 x.a0 x.a1 x.a2 x.a3 h0 h2
  exact hx (by apply QuarticCrandallField.ext <;> simp [zero_def, e0, e1, e2, e3])

/-- Helper: every nonzero quartic element has a multiplicative inverse. -/
theorem exists_mul_eq_one {p : Nat} [Fact p.Prime] (hp4 : p % 4 = 1)
    (h3 : ∀ b : ZMod p, b ^ 2 ≠ 3) (x : QuarticCrandallField p) (hx : x ≠ 0) :
    ∃ y, x * y = 1 := by
  have hconj := mul_conj_ne_zero hp4 h3 x hx
  have hm : (x.a0 ^ 2 + 3 * x.a2 ^ 2 - 6 * (x.a1 * x.a3)) ^ 2
      - 3 * (2 * (x.a0 * x.a2) - x.a1 ^ 2 - 3 * x.a3 ^ 2) ^ 2 ≠ 0 := by
    intro h
    obtain ⟨z0', z2'⟩ :=
      sq_eq_three_mul_sq h3 (x.a0 ^ 2 + 3 * x.a2 ^ 2 - 6 * (x.a1 * x.a3))
        (2 * (x.a0 * x.a2) - x.a1 ^ 2 - 3 * x.a3 ^ 2) (by linear_combination h)
    apply hconj
    rw [mul_conj, z0', z2']
    rfl
  set E0 := x.a0 ^ 2 + 3 * x.a2 ^ 2 - 6 * (x.a1 * x.a3) with hE0
  set E2 := 2 * (x.a0 * x.a2) - x.a1 ^ 2 - 3 * x.a3 ^ 2 with hE2
  set m := E0 ^ 2 - 3 * E2 ^ 2 with hmdef
  have hmm : m * m⁻¹ = 1 := mul_inv_cancel₀ hm
  refine ⟨conj x * ⟨E0 * m⁻¹, 0, -(E2 * m⁻¹), 0⟩, ?_⟩
  rw [← mul_assoc, mul_conj, ← hE0, ← hE2]
  refine QuarticCrandallField.ext ?_ ?_ ?_ ?_ <;> simp only [mul_def, one_def, W]
  · show E0 * (E0 * m⁻¹) + 3 * (0 * 0 + E2 * (-(E2 * m⁻¹)) + 0 * 0) = 1
    linear_combination hmm - m⁻¹ * hmdef
  · show E0 * 0 + 0 * (E0 * m⁻¹) + 3 * (E2 * 0 + 0 * (-(E2 * m⁻¹))) = 0
    ring
  · show E0 * (-(E2 * m⁻¹)) + 0 * 0 + E2 * (E0 * m⁻¹) + 3 * (0 * 0) = 0
    ring
  · show E0 * 0 + 0 * (-(E2 * m⁻¹)) + E2 * 0 + 0 * (E0 * m⁻¹) = 0
    ring

/-- Helper: the quartic ring has no zero divisors under the hypotheses. -/
theorem quartic_mul_ne_zero {p : Nat} [Fact p.Prime] (hp4 : p % 4 = 1)
    (h3 : ∀ b : ZMod p, b ^ 2 ≠ 3) (a b : QuarticCrandallField p)
    (ha : a ≠ 0) (hb : b ≠ 0) : a * b ≠ 0 := by
  intro h
  obtain ⟨y, hy⟩ := exists_mul_eq_one hp4 h3 a ha
  apply hb
  calc b = 1 * b := (one_mul b).symm
  _ = (y * a) * b := by rw [mul_comm y a, hy]
  _ = y * (a * b) := mul_assoc _ _ _
  _ = 0 := by rw [h, mul_zero]

/-- Helper: the Frobenius of a nonzero element is nonzero. -/
theorem frobenius_ne_zero {p : Nat} [Fact p.Prime]
    (h3 : ∀ b : ZMod p, b ^ 2 ≠ 3) (x : QuarticCrandallField p) (hx : x ≠ 0) :
    frobenius x ≠ 0 := by
  intro h
  have h30 := three_ne_zero_of_not_sq h3
  have hz0 : W p ^ ((p - 1) / 4) ≠ 0 := pow_ne_zero _ (by rw [W]; exact h30)
  rw [frobenius] at h
  rw [zero_def, mk.injEq] at h
  obtain ⟨h0, h1, h2, h3'⟩ := h
  apply hx
  apply QuarticCrandallField.ext <;> simp only [zero_def]
  · simpa using h0
  · simp only [one_mul, mul_eq_zero] at h1
    tauto
  · simp only [one_mul, mul_eq_zero] at h2
    tauto
  · simp only [one_mul, mul_eq_zero] at h3'
    tauto

/-- Helper: the Frobenius has order dividing 4 (its fourth iterate is the
identity), since `z0^4 = 3^(p-1) = 1`. -/
theorem frobenius_four {p : Nat} [Fact p.Prime] (hp4 : p % 4 = 1)
    (h3 : ∀ b : ZMod p, b ^ 2 ≠ 3) (x : QuarticCrandallField p) :
    frobenius (frobenius (frobenius (frobenius x))) = x := by
  have h30 := three_ne_zero_of_not_sq h3
  have h2 := (Fact.out : p.Prime).two_le
  have hz4 : (W p ^ ((p - 1) / 4)) ^ 4 = 1 := by
    rw [W, ← pow_mul, (by omega : (p - 1) / 4 * 4 = p - 1)]
    exact ZMod.pow_card_sub_one_eq_one h30
  refine QuarticCrandallField.ext ?_ ?_ ?_ ?_ <;> simp only [frobenius]
  · ring
  · linear_combination x.a1 * hz4
  · linear_combination x.a2 * ((W p ^ ((p - 1) / 4)) ^ 4 + 1) * hz4
  · linear_combination
      x.a3 * ((W p ^ ((p - 1) / 4)) ^ 8 + (W p ^ ((p - 1) / 4)) ^ 4 + 1) * hz4

/-- Helper: multiplication commutes with `scalar_mul` in the second factor. -/
theorem mul_scalar_mul {p : Nat} (y z : QuarticCrandallField p) (c : ZMod p) :
    y * scalar_mul z c = scalar_mul (y * z) c := by
  apply QuarticCrandallField.ext <;> simp only [mul_def, scalar_mul, W] <;> ring

/-- Supporting theorem for the frobenius/inversion claim: under the field
product that the source documents and tests its `Mul` to compute (but does not
compute; see `mul_c0_overflow_wraps`), `QuarticCrandallField::frobenius` is
raising to the base field's order `p` (`CrandallField::ORDER`), `try_inverse`
— computed via the Frobenius — returns `Some y` with `x * y = ONE` for every
nonzero `x`, and `None` for `x = ZERO`.  This establishes that the claimed
properties are the correct mathematics of the algorithm, so the overflow in
the shipped `Mul` is a code bug, not a specification error.  The base field is
`ZMod p` for a prime `p ≡ 1 mod 4` with 3 a non-square, the arithmetic content
of the source's stated irreducibility of `X^4 - 3` (see the modelling note on
`QuarticCrandallField`). -/
theorem quartic_frobenius_and_try_inverse (p : Nat) [Fact p.Prime]
    (hp4 : p % 4 = 1) (h3 : ∀ b : ZMod p, b ^ 2 ≠ 3) (x : QuarticCrandallField p) :
    frobenius x = x ^ p
    ∧ (x ≠ 0 → ∃ y, try_inverse x = some y ∧ x * y = 1)
    ∧ try_inverse (0 : QuarticCrandallField p) = none := by
  refine ⟨frobenius_eq_pow_card hp4 x, fun hx => ?_, by rw [try_inverse, if_pos rfl]⟩
  have hmul : ∀ a b : QuarticCrandallField p,
      frobenius (a * b) = frobenius a * frobenius b := by
    intro a b
    rw [frobenius_eq_pow_card hp4, frobenius_eq_pow_card hp4,
      frobenius_eq_pow_card hp4, mul_pow]
  set M := frobenius (frobenius (frobenius x * x)) * frobenius x with hM
  set N := M * x with hN
  have hNprod : N = x * frobenius x * frobenius (frobenius x)
      * frobenius (frobenius (frobenius x)) := by
    rw [hN, hM, hmul, hmul]
    ring
  have hNne : N ≠ 0 := by
    rw [hNprod]
    have f1 := frobenius_ne_zero h3 x hx
    have f2 := frobenius_ne_zero h3 _ f1
    have f3 := frobenius_ne_zero h3 _ f2
    exact quartic_mul_ne_zero hp4 h3 _ _
      (quartic_mul_ne_zero hp4 h3 _ _
        (quartic_mul_ne_zero hp4 h3 _ _ hx f1) f2) f3
  have hNfix : frobenius N = N := by
    rw [hNprod, hmul, hmul, hmul, frobenius_four hp4 h3 x]
    ring
  have hbase : N = iota N.a0 := frobenius_fixed_point hp4 h3 N hNfix
  have ha0 : N.a0 ≠ 0 := by
    intro h
    apply hNne
    rw [hbase, h]
    rfl
  refine ⟨scalar_mul M (N.a0)⁻¹, ?_, ?_⟩
  · rw [try_inverse, if_neg hx]
  · rw [mul_scalar_mul, mul_comm x M, ← hN, hbase]
    refine QuarticCrandallField.ext ?_ ?_ ?_ ?_ <;> simp only [scalar_mul, iota, one_def]
    · show N.a0 * (N.a0)⁻¹ = 1
      exact mul_inv_cancel₀ ha0
    · show (0 : ZMod p) * (N.a0)⁻¹ = 0
      ring
    · show (0 : ZMod p) * (N.a0)⁻¹ = 0
      ring
    · show (0 : ZMod p) * (N.a0)⁻¹ = 0
      ring

/-- Concrete instance of the supporting theorem: over `ZMod 5` (5 is a prime
`≡ 1 mod 4` with 3 a non-square), the generator `X` satisfies
`frobenius X = X^5`, has a `try_inverse` that multiplies with it to one, and
`try_inverse 0 = none`. -/
theorem quartic_frobenius_and_try_inverse_witness :
    frobenius (root 5) = (root 5) ^ 5
    ∧ (∃ y, try_inverse (root 5) = some y ∧ root 5 * y = 1)
    ∧ try_inverse (0 : QuarticCrandallField 5) = none := by
  have h := quartic_frobenius_and_try_inverse 5 (by norm_num) (by decide) (root 5)
  exact ⟨h.1, h.2.1 (by decide), h.2.2⟩

/-- C9: code-bug evidence.  The claim — `frobenius x = x^ORDER` for every `x`
and `x * try_inverse(x) = ONE` for nonzero `x` — states the source's own
documented and tested intent, but the shipped `Mul` it is computed through
overflows.  For every odd 64-bit modulus `p` of the Crandall magnitude
(`2^64 - 2^60 ≤ p < 2^64`, which the Crandall prime `2^64 - 9·2^28 + 1`
satisfies), at the canonical input `a = b` with raw components
`(0, 0, p - 1, 0)` (the element `-X^2`, squared — the kind of product
`exp_usize(ORDER)` in `test_frobenius` and `try_inverse` perform): the exact
value of the source's first coefficient sum reaches `2^128`, so the `u128`
addition overflows (a debug build panics outright), and the release-mode
wrapped value lies in a different residue class mod `p` than the exact sum —
so whatever congruent representative `reduce128` returns, the computed
coefficient is not the field product, and the claimed identities fail on the
shipped code. -/
theorem mul_c0_overflow_wraps (p : Nat) (h1 : 2 ^ 64 - 2 ^ 60 ≤ p)
    (h2 : p < 2 ^ 64) (hodd : p % 2 = 1) :
    2 ^ 128 ≤ mul_c0_sum 0 0 (p - 1) 0 0 0 (p - 1) 0
    ∧ wrap128 (mul_c0_sum 0 0 (p - 1) 0 0 0 (p - 1) 0) % p
        ≠ mul_c0_sum 0 0 (p - 1) 0 0 0 (p - 1) 0 % p := by
  have hS : mul_c0_sum 0 0 (p - 1) 0 0 0 (p - 1) 0 = 3 * ((p - 1) * (p - 1)) := by
    unfold mul_c0_sum
    ring
  have hlow : 2 ^ 129 ≤ 3 * ((p - 1) * (p - 1)) := by
    have hp1 : 2 ^ 64 - 2 ^ 60 - 1 ≤ p - 1 := by omega
    have hmul : (2 ^ 64 - 2 ^ 60 - 1) * (2 ^ 64 - 2 ^ 60 - 1) ≤ (p - 1) * (p - 1) :=
      Nat.mul_le_mul hp1 hp1
    calc (2 : Nat) ^ 129
        ≤ 3 * ((2 ^ 64 - 2 ^ 60 - 1) * (2 ^ 64 - 2 ^ 60 - 1)) := by norm_num
    _ ≤ 3 * ((p - 1) * (p - 1)) := Nat.mul_le_mul (le_refl 3) hmul
  have hhigh : 3 * ((p - 1) * (p - 1)) < 3 * 2 ^ 128 := by
    have hlt : (p - 1) * (p - 1) < 2 ^ 128 := by
      calc (p - 1) * (p - 1)
          ≤ (2 ^ 64 - 1) * (2 ^ 64 - 1) := Nat.mul_le_mul (by omega) (by omega)
      _ < 2 ^ 128 := by norm_num
    omega
  rw [hS]
  set S := 3 * ((p - 1) * (p - 1)) with hSdef
  refine ⟨by omega, ?_⟩
  have hwrap : wrap128 S = S - 2 ^ 129 := by
    unfold wrap128
    omega
  rw [hwrap]
  intro hEq
  have hdvd : p ∣ 2 ^ 129 := by
    have hsub : S - (S - 2 ^ 129) = 2 ^ 129 := by omega
    have hmodeq : Nat.ModEq p (S - 2 ^ 129) S := hEq
    have := (Nat.modEq_iff_dvd' (by omega : S - 2 ^ 129 ≤ S)).mp hmodeq
    rwa [hsub] at this
  have h2p : ¬ 2 ∣ p := by omega
  have hcop : Nat.Coprime p 2 :=
    Nat.coprime_comm.mp ((Nat.prime_two.coprime_iff_not_dvd).mpr h2p)
  have hone : p = 1 := Nat.Coprime.eq_one_of_dvd (hcop.pow_right 129) hdvd
  omega

/-- C9 witness: the overflow and the residue divergence evaluated at the
Crandall prime `2^64 - 9·2^28 + 1 = 18446744071293632513` (an odd modulus in
the theorem's range; `crandall_field.rs` itself is not under `src/`, and the
theorem holds for every odd 64-bit modulus of this magnitude). -/
theorem mul_c0_overflow_wraps_witness :
    2 ^ 128
      ≤ mul_c0_sum 0 0 (18446744071293632513 - 1) 0 0 0 (18446744071293632513 - 1) 0
    ∧ wrap128 (mul_c0_sum 0 0 (18446744071293632513 - 1) 0 0 0
          (18446744071293632513 - 1) 0) % 18446744071293632513
        ≠ mul_c0_sum 0 0 (18446744071293632513 - 1) 0 0 0
            (18446744071293632513 - 1) 0 % 18446744071293632513 :=
  mul_c0_overflow_wraps 18446744071293632513 (by norm_num) (by norm_num) (by norm_num)

end QuarticCrandallField

end Plonky2
